import Mathlib

/-!
Verification of the pkr.img Party State Machine and Settlement Engine.

The repository ships the Next.js frontend (web/app) and documentation; the
FastAPI backend (api/main.py, api/models.py) that implements the Party
registry, Submission ledger and Settlement engine is not part of the
distributed sources.  The core operations below are therefore modelled from
the specification (spec.md sections 3 and 4), while the client-side
definitions (request shapes, localStorage handling) are translated directly
from the TypeScript pages under web/app.
-/

/-- Player role: exactly one Host per Party, everyone else Participant. -/
inductive Role where
  | Host
  | Participant
deriving Repr, DecidableEq

/-- Modelled from the spec: Player record of section 3 (api/models.py is not
in the sources).  `id` identifies the player; `payoutHandle` is the optional
external payment identifier (venmo in the frontend). -/
structure Player where
  id : Nat
  displayName : String
  payoutHandle : Option String
  role : Role
deriving Repr, DecidableEq

/-- Modelled from the spec: Submission record of section 3.  `sequenceNumber`
is server-assigned and monotonically increasing per Party; `valuationCents`
is an integer count of cents; `sourceRef` is the opaque reference to the
externally-valuated image. -/
structure Submission where
  id : Nat
  playerId : Nat
  sequenceNumber : Nat
  valuationCents : Int
  sourceRef : String
deriving Repr, DecidableEq

/-- A single directed payment instruction produced by settlement. -/
structure Transfer where
  fromPlayerId : Nat
  toPlayerId : Nat
  amountCents : Int
deriving Repr, DecidableEq

/-- Modelled from the spec: Settlement result of section 3 — the ordered
Transfer list, the net balance used per player, and the "unresolved player"
metadata of section 4.3 step 2. -/
structure Settlement where
  transfers : List Transfer
  nets : List (Nat × Int)
  unresolvedPlayers : List Nat
deriving Repr, DecidableEq

/-- Party lifecycle status.  `Ended` carries the immutable Settlement result
owned by the Party (spec section 3: once Ended, the Party owns an immutable
Settlement). -/
inductive Status where
  | Open
  | Ending
  | Ended (result : Settlement)
deriving Repr, DecidableEq

/-- Modelled from the spec: Party record of section 3.  `nextSeq` is the
per-Party sequence counter used for atomic sequence-number assignment;
`nextPlayerId` is the id counter for joining players.  The buy-in is not
stored on the Party: the frontend supplies `buy_in_cents` with the EndGame
request (web/app/party/[code]/host/page.tsx). -/
structure Party where
  code : String
  status : Status
  players : List Player
  submissions : List Submission
  nextSeq : Nat
  nextPlayerId : Nat
deriving Repr, DecidableEq

/-- The stored settlement of a Party, present exactly when it is Ended. -/
def Party.settlement (p : Party) : Option Settlement :=
  match p.status with
  | .Ended s => some s
  | _ => none

/-- Typed failure taxonomy of spec section 7. -/
inductive Err where
  | InvalidInput
  | PartyNotFound
  | PlayerNotFound
  | PartyClosed
  | SettlementInProgress
deriving Repr, DecidableEq

/-- Modelled from the spec: the Submission with the greatest sequence number
for a player, scanning the append-only log (spec section 4.2 ResolveTotal). -/
def latestFor (pid : Nat) : List Submission → Option Submission
  | [] => none
  | s :: rest =>
    let r := latestFor pid rest
    if s.playerId = pid then
      match r with
      | none => some s
      | some b => if b.sequenceNumber < s.sequenceNumber then some s else some b
    else r

/-- Modelled from the spec: ResolveTotal — the valuation of the Submission
with the greatest sequence number for the player, absent if none exists. -/
def resolveTotal (p : Party) (pid : Nat) : Option Int :=
  (latestFor pid p.submissions).map Submission.valuationCents

/-- Priority order of the debt-netting structures (spec section 4.3 step 5):
keyed by absolute net descending, with player id as tie-break (lower id
first) whenever amounts are equal. -/
def netLE (a b : Nat × Int) : Prop :=
  b.2.natAbs < a.2.natAbs ∨ (a.2.natAbs = b.2.natAbs ∧ a.1 ≤ b.1)

instance : DecidableRel netLE := fun a b => by
  unfold netLE; infer_instance

instance : IsTotal (Nat × Int) netLE :=
  ⟨fun a b => by unfold netLE; omega⟩

instance : IsTrans (Nat × Int) netLE :=
  ⟨fun a b c hab hbc => by unfold netLE at hab hbc ⊢; omega⟩

/-- Modelled from the spec: the greedy debt-netting loop (section 4.3 step
5).  Entries are (player id, outstanding magnitude) pairs held in `netLE`
order.  Repeatedly take the creditor and debtor with the largest outstanding
magnitude, transfer the matched minimum, decrement both, drop whichever
remainder reaches zero (re-inserting a nonzero remainder in priority order),
and stop when either structure is empty (per section 8, an unmatched
leftover remains when the nets do not balance).  The first argument is
recursion fuel; `settleNets` supplies the total number of entries, which is
always sufficient because every iteration removes at least one entry. -/
def settleLoop : Nat → List (Nat × Int) → List (Nat × Int) → List Transfer
  | 0, _, _ => []
  | _ + 1, [], _ => []
  | _ + 1, _ :: _, [] => []
  | fuel + 1, (cid, crem) :: cs, (did, drem) :: ds =>
    let amt := min crem drem
    let cs' := if crem = amt then cs else cs.orderedInsert netLE (cid, crem - amt)
    let ds' := if drem = amt then ds else ds.orderedInsert netLE (did, drem - amt)
    ⟨did, cid, amt⟩ :: settleLoop fuel cs' ds'

/-- Modelled from the spec: partition the per-player nets into creditors
(net > 0) and debtors (net < 0, kept as positive magnitudes), order each by
`netLE`, and run the greedy loop.  Players with net 0 are skipped. -/
def settleNets (nets : List (Nat × Int)) : List Transfer :=
  let cs := (nets.filter (fun e => 0 < e.2)).insertionSort netLE
  let ds := ((nets.filter (fun e => e.2 < 0)).map (fun e => (e.1, -e.2))).insertionSort netLE
  settleLoop (cs.length + ds.length) cs ds

/-- Modelled from the spec: per-player net balances (section 4.3 steps 2-3) —
resolved total (0 for a player with no Submission) minus the buy-in. -/
def computeNets (p : Party) (buyInCents : Int) : List (Nat × Int) :=
  p.players.map (fun pl => (pl.id, (resolveTotal p pl.id).getD 0 - buyInCents))

/-- Players with no Submission, reported as "unresolved" metadata. -/
def unresolvedOf (p : Party) : List Nat :=
  (p.players.filter (fun pl => resolveTotal p pl.id = none)).map Player.id

/-- Modelled from the spec: the full settlement computation of EndGame
(section 4.3 steps 2-5). -/
def computeSettlement (p : Party) (buyInCents : Int) : Settlement :=
  { transfers := settleNets (computeNets p buyInCents)
    nets := computeNets p buyInCents
    unresolvedPlayers := unresolvedOf p }

/-- Modelled from the spec: CreateParty (section 4.1).  Party-code
generation is an out-of-scope utility (spec section 1), so the generated
code is taken as an argument.  Creation fails with InvalidInput on an empty
host name and otherwise creates an Open Party whose first Player is the
Host; the buy-in is not part of creation (the frontend sends only host_name
to /party and supplies buy_in_cents with the EndGame request). -/
def createParty (code : String) (hostName : String) : Except Err Party :=
  if hostName = "" then .error .InvalidInput
  else .ok
    { code := code
      status := .Open
      players := [⟨1, hostName, none, .Host⟩]
      submissions := []
      nextSeq := 1
      nextPlayerId := 2 }

/-- Modelled from the spec: JoinParty (section 4.1) on a located Party
(PartyNotFound is a registry-lookup failure, out of this single-party
state model).  Fails with PartyClosed unless the Party is Open. -/
def joinParty (p : Party) (displayName : String) (payoutHandle : Option String) :
    Except Err Player × Party :=
  match p.status with
  | .Open =>
    let pl : Player := ⟨p.nextPlayerId, displayName, payoutHandle, .Participant⟩
    (.ok pl, { p with players := p.players ++ [pl], nextPlayerId := p.nextPlayerId + 1 })
  | _ => (.error .PartyClosed, p)

/-- Modelled from the spec: Submit (section 4.2).  Fails with PartyClosed
unless the Party is Open, with PlayerNotFound if the player does not belong
to the Party, and with InvalidInput on a negative valuation (the accepted
shape is a non-negative integer count of cents, section 6).  On success the
Submission is appended with the atomically assigned next sequence number. -/
def submit (p : Party) (pid : Nat) (valuationCents : Int) (sourceRef : String) :
    Except Err Submission × Party :=
  match p.status with
  | .Open =>
    if p.players.all (fun pl => pl.id ≠ pid) then (.error .PlayerNotFound, p)
    else if valuationCents < 0 then (.error .InvalidInput, p)
    else
      let s : Submission := ⟨p.nextSeq, pid, p.nextSeq, valuationCents, sourceRef⟩
      (.ok s, { p with submissions := s :: p.submissions, nextSeq := p.nextSeq + 1 })
  | _ => (.error .PartyClosed, p)

/-- Modelled from the spec: EndGame (section 4.3).  On an Ended Party the
stored Settlement is returned unchanged (idempotent retry, no
recomputation); on an Ending Party the call fails fast with
SettlementInProgress; on an Open Party the buy-in must be positive
(InvalidInput otherwise), the settlement is computed, persisted, and the
Party transitions to Ended. -/
def endGame (p : Party) (buyInCents : Int) : Except Err Settlement × Party :=
  match p.status with
  | .Ended s => (.ok s, p)
  | .Ending => (.error .SettlementInProgress, p)
  | .Open =>
    if buyInCents ≤ 0 then (.error .InvalidInput, p)
    else
      let s := computeSettlement p buyInCents
      (.ok s, { p with status := .Ended s })

example : settleNets [(1, 3000), (2, -500), (3, -500)] =
    [⟨2, 1, 500⟩, ⟨3, 1, 500⟩] := by decide

example : settleNets [(1, 0), (2, 0), (3, 0)] = [] := by decide

/-- Total amount credited to player `i` by a Transfer list. -/
def recv (ts : List Transfer) (i : Nat) : Int :=
  (ts.map (fun t => if t.toPlayerId = i then t.amountCents else 0)).sum

/-- Total amount debited from player `i` by a Transfer list. -/
def paid (ts : List Transfer) (i : Nat) : Int :=
  (ts.map (fun t => if t.fromPlayerId = i then t.amountCents else 0)).sum

/-- Outstanding magnitude owed to (or by) id `i` in a priority-structure
entry list. -/
def owed (l : List (Nat × Int)) (i : Nat) : Int :=
  (l.map (fun e => if e.1 = i then e.2 else 0)).sum

/-- Sum of all outstanding magnitudes in an entry list. -/
def sumRem (l : List (Nat × Int)) : Int :=
  (l.map Prod.snd).sum

theorem owed_nil (i : Nat) : owed [] i = 0 := rfl

theorem owed_cons (a : Nat × Int) (l : List (Nat × Int)) (i : Nat) :
    owed (a :: l) i = (if a.1 = i then a.2 else 0) + owed l i := by
  simp [owed]

theorem recv_cons (t : Transfer) (ts : List Transfer) (i : Nat) :
    recv (t :: ts) i = (if t.toPlayerId = i then t.amountCents else 0) + recv ts i := by
  simp [recv]

theorem paid_cons (t : Transfer) (ts : List Transfer) (i : Nat) :
    paid (t :: ts) i = (if t.fromPlayerId = i then t.amountCents else 0) + paid ts i := by
  simp [paid]

theorem sumRem_cons (a : Nat × Int) (l : List (Nat × Int)) :
    sumRem (a :: l) = a.2 + sumRem l := by
  simp [sumRem]

theorem owed_perm {l l' : List (Nat × Int)} (h : List.Perm l l') (i : Nat) :
    owed l i = owed l' i :=
  (h.map _).sum_eq

theorem sumRem_perm {l l' : List (Nat × Int)} (h : List.Perm l l') :
    sumRem l = sumRem l' :=
  (h.map _).sum_eq

theorem sumRem_nonneg {l : List (Nat × Int)} (h : ∀ e ∈ l, 0 < e.2) :
    0 ≤ sumRem l := by
  induction l with
  | nil => simp [sumRem]
  | cons a l ih =>
    rw [sumRem_cons]
    have h1 := h a (by simp)
    have h2 := ih (fun e he => h e (List.mem_cons_of_mem a he))
    omega

theorem eq_nil_of_sumRem_nonpos {l : List (Nat × Int)}
    (hpos : ∀ e ∈ l, 0 < e.2) (h : sumRem l ≤ 0) : l = [] := by
  cases l with
  | nil => rfl
  | cons a l =>
    rw [sumRem_cons] at h
    have h1 := hpos a (by simp)
    have h2 := sumRem_nonneg (fun e he => hpos e (List.mem_cons_of_mem a he))
    omega

theorem mem_orderedInsert' {a b : Nat × Int} {l : List (Nat × Int)} :
    b ∈ l.orderedInsert netLE a ↔ b = a ∨ b ∈ l :=
  (List.perm_orderedInsert netLE a l).mem_iff.trans (by simp)

theorem settleLoop_succ (fuel : Nat) (cid : Nat) (crem : Int) (cs : List (Nat × Int))
    (did : Nat) (drem : Int) (ds : List (Nat × Int)) :
    settleLoop (fuel + 1) ((cid, crem) :: cs) ((did, drem) :: ds) =
      ⟨did, cid, min crem drem⟩ ::
        settleLoop fuel
          (if crem = min crem drem then cs
           else cs.orderedInsert netLE (cid, crem - min crem drem))
          (if drem = min crem drem then ds
           else ds.orderedInsert netLE (did, drem - min crem drem)) := rfl

theorem settleLoop_discharge :
    ∀ (fuel : Nat) (cs ds : List (Nat × Int)),
      cs.length + ds.length ≤ fuel →
      (∀ e ∈ cs, 0 < e.2) →
      (∀ e ∈ ds, 0 < e.2) →
      (∀ e ∈ cs, ∀ f ∈ ds, e.1 ≠ f.1) →
      sumRem cs = sumRem ds →
      ∀ i, recv (settleLoop fuel cs ds) i = owed cs i ∧
           paid (settleLoop fuel cs ds) i = owed ds i
  | 0, cs, ds, hfuel, hpc, hpd, hdisj, hsum, i => by
    have hcs : cs = [] := List.length_eq_zero.mp (by omega)
    have hds : ds = [] := List.length_eq_zero.mp (by omega)
    subst hcs; subst hds
    simp [settleLoop, recv, paid, owed]
  | fuel + 1, [], ds, hfuel, hpc, hpd, hdisj, hsum, i => by
    have hds : ds = [] := by
      apply eq_nil_of_sumRem_nonpos hpd
      have : sumRem ([] : List (Nat × Int)) = 0 := rfl
      omega
    subst hds
    simp [settleLoop, recv, paid, owed]
  | fuel + 1, c :: cs, [], hfuel, hpc, hpd, hdisj, hsum, i => by
    exfalso
    have hcs : c :: cs = [] := by
      apply eq_nil_of_sumRem_nonpos hpc
      have : sumRem ([] : List (Nat × Int)) = 0 := rfl
      omega
    exact List.cons_ne_nil _ _ hcs
  | fuel + 1, (cid, crem) :: cs, (did, drem) :: ds, hfuel, hpc, hpd, hdisj, hsum, i => by
    have hc : 0 < crem := hpc _ (List.mem_cons_self _ _)
    have hd : 0 < drem := hpd _ (List.mem_cons_self _ _)
    have hmin : min crem drem = crem ∨ min crem drem = drem := min_choice crem drem
    have hminle1 : min crem drem ≤ crem := min_le_left _ _
    have hminle2 : min crem drem ≤ drem := min_le_right _ _
    rw [settleLoop_succ]
    set amt := min crem drem with hamt
    -- the updated structures
    by_cases hc1 : crem = amt <;> by_cases hd1 : drem = amt
    · -- both heads fully consumed
      simp only [if_pos hc1, if_pos hd1]
      have ih := settleLoop_discharge fuel cs ds (by simp at hfuel ⊢; omega)
        (fun e he => hpc e (List.mem_cons_of_mem _ he))
        (fun e he => hpd e (List.mem_cons_of_mem _ he))
        (fun e he f hf => hdisj e (List.mem_cons_of_mem _ he) f (List.mem_cons_of_mem _ hf))
        (by rw [sumRem_cons, sumRem_cons] at hsum; omega)
      obtain ⟨ihr, ihp⟩ := ih i
      have hne : cid ≠ did := hdisj _ (List.mem_cons_self _ _) _ (List.mem_cons_self _ _)
      constructor
      · rw [recv_cons, ihr, owed_cons]
        simp only
        split_ifs with h1 h2 <;> omega
      · rw [paid_cons, ihp, owed_cons]
        simp only
        split_ifs with h1 h2 <;> omega
    · -- creditor consumed, debtor re-inserted
      simp only [if_pos hc1, if_neg hd1]
      have hdpos : 0 < drem - amt := by omega
      have hperm := List.perm_orderedInsert netLE (did, drem - amt) ds
      have ih := settleLoop_discharge fuel cs (ds.orderedInsert netLE (did, drem - amt))
        (by
          rw [List.orderedInsert_length]
          simp at hfuel ⊢; omega)
        (fun e he => hpc e (List.mem_cons_of_mem _ he))
        (fun e he => by
          rcases mem_orderedInsert'.mp he with h | h
          · subst h; exact hdpos
          · exact hpd e (List.mem_cons_of_mem _ h))
        (fun e he f hf => by
          rcases mem_orderedInsert'.mp hf with h | h
          · subst h
            exact hdisj e (List.mem_cons_of_mem _ he) (did, drem) (List.mem_cons_self _ _)
          · exact hdisj e (List.mem_cons_of_mem _ he) f (List.mem_cons_of_mem _ h))
        (by
          rw [sumRem_perm hperm, sumRem_cons]
          rw [sumRem_cons, sumRem_cons] at hsum
          simp only
          omega)
      obtain ⟨ihr, ihp⟩ := ih i
      have hne : cid ≠ did := hdisj _ (List.mem_cons_self _ _) _ (List.mem_cons_self _ _)
      have howd : owed (ds.orderedInsert netLE (did, drem - amt)) i =
          (if did = i then drem - amt else 0) + owed ds i := by
        rw [owed_perm hperm i, owed_cons]
      constructor
      · rw [recv_cons, ihr, owed_cons]
        simp only
        split_ifs with h1 h2 <;> omega
      · rw [paid_cons, ihp, howd, owed_cons]
        simp only
        split_ifs with h1 h2 <;> omega
    · -- debtor consumed, creditor re-inserted
      simp only [if_neg hc1, if_pos hd1]
      have hcpos : 0 < crem - amt := by omega
      have hperm := List.perm_orderedInsert netLE (cid, crem - amt) cs
      have ih := settleLoop_discharge fuel (cs.orderedInsert netLE (cid, crem - amt)) ds
        (by
          rw [List.orderedInsert_length]
          simp at hfuel ⊢; omega)
        (fun e he => by
          rcases mem_orderedInsert'.mp he with h | h
          · subst h; exact hcpos
          · exact hpc e (List.mem_cons_of_mem _ h))
        (fun e he => hpd e (List.mem_cons_of_mem _ he))
        (fun e he f hf => by
          rcases mem_orderedInsert'.mp he with h | h
          · subst h
            exact hdisj (cid, crem) (List.mem_cons_self _ _) f (List.mem_cons_of_mem _ hf)
          · exact hdisj e (List.mem_cons_of_mem _ h) f (List.mem_cons_of_mem _ hf))
        (by
          rw [sumRem_perm hperm, sumRem_cons]
          rw [sumRem_cons, sumRem_cons] at hsum
          simp only
          omega)
      obtain ⟨ihr, ihp⟩ := ih i
      have hne : cid ≠ did := hdisj _ (List.mem_cons_self _ _) _ (List.mem_cons_self _ _)
      have howd : owed (cs.orderedInsert netLE (cid, crem - amt)) i =
          (if cid = i then crem - amt else 0) + owed cs i := by
        rw [owed_perm hperm i, owed_cons]
      constructor
      · rw [recv_cons, ihr, howd, owed_cons]
        simp only
        split_ifs with h1 h2 <;> omega
      · rw [paid_cons, ihp, owed_cons]
        simp only
        split_ifs with h1 h2 <;> omega
    · omega

theorem settleLoop_length :
    ∀ (fuel : Nat) (cs ds : List (Nat × Int)),
      (settleLoop fuel cs ds).length ≤ cs.length + ds.length - 1
  | 0, cs, ds => by simp [settleLoop]
  | _ + 1, [], ds => by simp [settleLoop]
  | _ + 1, _ :: _, [] => by simp [settleLoop]
  | fuel + 1, (cid, crem) :: cs, (did, drem) :: ds => by
    have hmin : min crem drem = crem ∨ min crem drem = drem := min_choice crem drem
    rw [settleLoop_succ]
    set amt := min crem drem with hamt
    by_cases hc1 : crem = amt <;> by_cases hd1 : drem = amt <;>
      simp only [if_pos, if_neg, hc1, hd1, ite_true, ite_false]
    · have ih := settleLoop_length fuel cs ds
      simp only [List.length_cons]
      omega
    · have ih := settleLoop_length fuel cs (ds.orderedInsert netLE (did, drem - amt))
      simp only [List.length_cons, List.orderedInsert_length] at ih ⊢
      omega
    · have ih := settleLoop_length fuel (cs.orderedInsert netLE (cid, crem - amt)) ds
      simp only [List.length_cons, List.orderedInsert_length] at ih ⊢
      omega
    · omega

theorem mem_fst_orderedInsert {x : Nat} {a : Nat × Int} {l : List (Nat × Int)} :
    x ∈ (l.orderedInsert netLE a).map Prod.fst ↔ x = a.1 ∨ x ∈ l.map Prod.fst := by
  rw [((List.perm_orderedInsert netLE a l).map Prod.fst).mem_iff]
  simp

theorem settleLoop_mem :
    ∀ (fuel : Nat) (cs ds : List (Nat × Int)) (t : Transfer),
      t ∈ settleLoop fuel cs ds →
      t.toPlayerId ∈ cs.map Prod.fst ∧ t.fromPlayerId ∈ ds.map Prod.fst
  | 0, cs, ds, t, ht => by simp [settleLoop] at ht
  | _ + 1, [], ds, t, ht => by simp [settleLoop] at ht
  | _ + 1, _ :: _, [], t, ht => by simp [settleLoop] at ht
  | fuel + 1, (cid, crem) :: cs, (did, drem) :: ds, t, ht => by
    rw [settleLoop_succ] at ht
    set amt := min crem drem with hamt
    rcases List.mem_cons.mp ht with h | h
    · subst h
      exact ⟨List.mem_cons_self _ _, List.mem_cons_self _ _⟩
    · by_cases hc1 : crem = amt <;> by_cases hd1 : drem = amt <;>
        simp only [if_pos, if_neg, hc1, hd1, ite_true, ite_false] at h
      · have ih := settleLoop_mem fuel cs ds t h
        exact ⟨List.mem_cons_of_mem _ ih.1, List.mem_cons_of_mem _ ih.2⟩
      · have ih := settleLoop_mem fuel cs (ds.orderedInsert netLE (did, drem - amt)) t h
        refine ⟨List.mem_cons_of_mem _ ih.1, ?_⟩
        rcases mem_fst_orderedInsert.mp ih.2 with h2 | h2
        · simp [h2]
        · exact List.mem_cons_of_mem _ h2
      · have ih := settleLoop_mem fuel (cs.orderedInsert netLE (cid, crem - amt)) ds t h
        refine ⟨?_, List.mem_cons_of_mem _ ih.2⟩
        rcases mem_fst_orderedInsert.mp ih.1 with h2 | h2
        · simp [h2]
        · exact List.mem_cons_of_mem _ h2
      · have ih := settleLoop_mem fuel (cs.orderedInsert netLE (cid, crem - amt))
          (ds.orderedInsert netLE (did, drem - amt)) t h
        constructor
        · rcases mem_fst_orderedInsert.mp ih.1 with h2 | h2
          · simp [h2]
          · exact List.mem_cons_of_mem _ h2
        · rcases mem_fst_orderedInsert.mp ih.2 with h2 | h2
          · simp [h2]
          · exact List.mem_cons_of_mem _ h2

theorem sorted_perm_eq :
    ∀ {l₁ l₂ : List (Nat × Int)}, List.Perm l₁ l₂ →
      l₁.Sorted netLE → l₂.Sorted netLE →
      (∀ a ∈ l₂, ∀ b ∈ l₂, netLE a b → netLE b a → a = b) →
      l₁ = l₂ := by
  intro l₁
  induction l₁ with
  | nil => intro l₂ hp _ _ _; exact hp.nil_eq
  | cons a t₁ ih =>
    intro l₂ hp hs₁ hs₂ hanti
    cases l₂ with
    | nil => exact absurd (List.perm_nil.mp hp) (List.cons_ne_nil _ _)
    | cons b t₂ =>
      by_cases hab : a = b
      · subst hab
        have ht := ih (hp.cons_inv) (List.sorted_cons.mp hs₁).2 (List.sorted_cons.mp hs₂).2
          (fun x hx y hy => hanti x (List.mem_cons_of_mem _ hx) y (List.mem_cons_of_mem _ hy))
        rw [ht]
      · exfalso
        have ha2 : a ∈ b :: t₂ := hp.subset (List.mem_cons_self _ _)
        have hat : a ∈ t₂ := by
          rcases List.mem_cons.mp ha2 with h | h
          · exact absurd h hab
          · exact h
        have hb1 : b ∈ a :: t₁ := hp.symm.subset (List.mem_cons_self _ _)
        have hbt : b ∈ t₁ := by
          rcases List.mem_cons.mp hb1 with h | h
          · exact absurd h.symm hab
          · exact h
        have h1 : netLE b a := (List.sorted_cons.mp hs₂).1 a hat
        have h2 : netLE a b := (List.sorted_cons.mp hs₁).1 b hbt
        exact hab (hanti a ha2 b (List.mem_cons_self _ _) h2 h1)

theorem nodup_key_inj :
    ∀ {l : List (Nat × Int)}, (l.map Prod.fst).Nodup →
      ∀ {a b : Nat × Int}, a ∈ l → b ∈ l → a.1 = b.1 → a = b := by
  intro l
  induction l with
  | nil => intro _ a b ha; simp at ha
  | cons c t ih =>
    intro hnd a b ha hb hab
    rw [List.map_cons, List.nodup_cons] at hnd
    rcases List.mem_cons.mp ha with h1 | h1 <;> rcases List.mem_cons.mp hb with h2 | h2
    · rw [h1, h2]
    · exfalso
      apply hnd.1
      have hc : c.1 = b.1 := by rw [← h1, hab]
      rw [hc]
      exact List.mem_map_of_mem Prod.fst h2
    · exfalso
      apply hnd.1
      have hc : c.1 = a.1 := by rw [← h2, ← hab]
      rw [hc]
      exact List.mem_map_of_mem Prod.fst h1
    · exact ih hnd.2 h1 h2 hab

theorem netLE_antisymm_of_nodup {l : List (Nat × Int)} (hnd : (l.map Prod.fst).Nodup) :
    ∀ a ∈ l, ∀ b ∈ l, netLE a b → netLE b a → a = b := by
  intro a ha b hb h1 h2
  apply nodup_key_inj hnd ha hb
  unfold netLE at h1 h2
  omega

theorem insertionSort_eq_of_perm {l l' : List (Nat × Int)}
    (hp : List.Perm l l') (hnd : (l'.map Prod.fst).Nodup) :
    l.insertionSort netLE = l'.insertionSort netLE := by
  apply sorted_perm_eq
  · exact (List.perm_insertionSort netLE l).trans (hp.trans (List.perm_insertionSort netLE l').symm)
  · exact List.sorted_insertionSort netLE l
  · exact List.sorted_insertionSort netLE l'
  · apply netLE_antisymm_of_nodup
    exact (((List.perm_insertionSort netLE l').map Prod.fst).nodup_iff).mpr hnd

theorem sumRem_filter_split (l : List (Nat × Int)) :
    sumRem (l.filter (fun e => 0 < e.2)) + sumRem (l.filter (fun e => e.2 < 0)) = sumRem l := by
  induction l with
  | nil => rfl
  | cons a t ih =>
    rw [sumRem_cons]
    by_cases h1 : 0 < a.2
    · rw [List.filter_cons_of_pos (by simpa using h1),
        List.filter_cons_of_neg (by simpa using (by omega : ¬ a.2 < 0)), sumRem_cons]
      omega
    · by_cases h2 : a.2 < 0
      · rw [List.filter_cons_of_neg (by simpa using h1),
          List.filter_cons_of_pos (by simpa using h2), sumRem_cons]
        omega
      · rw [List.filter_cons_of_neg (by simpa using h1),
          List.filter_cons_of_neg (by simpa using h2)]
        omega

theorem sumRem_negmap (l : List (Nat × Int)) :
    sumRem (l.map (fun e => (e.1, -e.2))) = - sumRem l := by
  induction l with
  | nil => rfl
  | cons a t ih =>
    rw [List.map_cons, sumRem_cons, sumRem_cons, ih]
    omega

theorem owed_eq_zero {l : List (Nat × Int)} {i : Nat}
    (h : i ∉ l.map Prod.fst) : owed l i = 0 := by
  induction l with
  | nil => rfl
  | cons a t ih =>
    rw [owed_cons]
    rw [List.map_cons, List.mem_cons] at h
    push_neg at h
    rw [if_neg (Ne.symm h.1), ih h.2]
    omega

theorem owed_eq_of_nodup {l : List (Nat × Int)} {i : Nat} {n : Int}
    (hnd : (l.map Prod.fst).Nodup) (hmem : (i, n) ∈ l) : owed l i = n := by
  induction l with
  | nil => simp at hmem
  | cons a t ih =>
    rw [List.map_cons, List.nodup_cons] at hnd
    rw [owed_cons]
    rcases List.mem_cons.mp hmem with h | h
    · have ha1 : a.1 = i := by rw [← h]
      have ha2 : a.2 = n := by rw [← h]
      rw [if_pos ha1, owed_eq_zero (ha1 ▸ hnd.1)]
      omega
    · have hne : a.1 ≠ i := by
        intro he
        apply hnd.1
        rw [he]
        exact List.mem_map_of_mem Prod.fst h
      rw [if_neg hne, ih hnd.2 h]
      omega

theorem mem_filter_pos {l : List (Nat × Int)} {e : Nat × Int}
    (h : e ∈ l.filter (fun e => 0 < e.2)) : e ∈ l ∧ 0 < e.2 := by
  have := List.mem_filter.mp h
  simpa using this

theorem mem_filter_neg {l : List (Nat × Int)} {e : Nat × Int}
    (h : e ∈ l.filter (fun e => e.2 < 0)) : e ∈ l ∧ e.2 < 0 := by
  have := List.mem_filter.mp h
  simpa using this

theorem filter_fst_nodup {l : List (Nat × Int)} (hnd : (l.map Prod.fst).Nodup)
    (f : (Nat × Int) → Bool) : ((l.filter f).map Prod.fst).Nodup :=
  List.Nodup.sublist ((List.filter_sublist l).map Prod.fst) hnd

theorem negmap_fst {l : List (Nat × Int)} :
    (l.map (fun e => (e.1, -e.2))).map Prod.fst = l.map Prod.fst := by
  simp [List.map_map]

theorem owed_filter_pos {l : List (Nat × Int)} {i : Nat} {n : Int}
    (hnd : (l.map Prod.fst).Nodup) (hmem : (i, n) ∈ l) :
    owed (l.filter (fun e => 0 < e.2)) i = max n 0 := by
  by_cases hpos : 0 < n
  · have hm : (i, n) ∈ l.filter (fun e => 0 < e.2) :=
      List.mem_filter.mpr ⟨hmem, by simpa using hpos⟩
    rw [owed_eq_of_nodup (filter_fst_nodup hnd _) hm]
    omega
  · rw [owed_eq_zero]
    · omega
    · intro hmemf
      obtain ⟨e, he, hei⟩ := List.mem_map.mp hmemf
      obtain ⟨hel, hepos⟩ := mem_filter_pos he
      have he2 : e = (i, n) := nodup_key_inj hnd hel hmem (by rw [hei])
      rw [he2] at hepos
      exact hpos hepos

theorem owed_negmap {l : List (Nat × Int)} {i : Nat} {n : Int}
    (hnd : (l.map Prod.fst).Nodup) (hmem : (i, n) ∈ l) :
    owed ((l.filter (fun e => e.2 < 0)).map (fun e => (e.1, -e.2))) i = max (-n) 0 := by
  by_cases hneg : n < 0
  · have hm : (i, -n) ∈ (l.filter (fun e => e.2 < 0)).map (fun e => (e.1, -e.2)) := by
      apply List.mem_map.mpr
      exact ⟨(i, n), List.mem_filter.mpr ⟨hmem, by simpa using hneg⟩, rfl⟩
    rw [owed_eq_of_nodup (by rw [negmap_fst]; exact filter_fst_nodup hnd _) hm]
    omega
  · rw [owed_eq_zero]
    · omega
    · intro hmemf
      rw [negmap_fst] at hmemf
      obtain ⟨e, he, hei⟩ := List.mem_map.mp hmemf
      obtain ⟨hel, heneg⟩ := mem_filter_neg he
      have he2 : e = (i, n) := nodup_key_inj hnd hel hmem (by rw [hei])
      rw [he2] at heneg
      exact hneg heneg

theorem settleNets_discharge {nets : List (Nat × Int)}
    (hnd : (nets.map Prod.fst).Nodup) (hsum : sumRem nets = 0)
    {i : Nat} {n : Int} (hmem : (i, n) ∈ nets) :
    recv (settleNets nets) i = max n 0 ∧ paid (settleNets nets) i = max (-n) 0 := by
  have hpermc := List.perm_insertionSort netLE (nets.filter (fun e => 0 < e.2))
  have hpermd := List.perm_insertionSort netLE
    ((nets.filter (fun e => e.2 < 0)).map (fun e => (e.1, -e.2)))
  have hsums : sumRem ((nets.filter (fun e => 0 < e.2)).insertionSort netLE) =
      sumRem (((nets.filter (fun e => e.2 < 0)).map (fun e => (e.1, -e.2))).insertionSort netLE) := by
    rw [sumRem_perm hpermc, sumRem_perm hpermd, sumRem_negmap]
    have := sumRem_filter_split nets
    omega
  have hmain := settleLoop_discharge
    (((nets.filter (fun e => 0 < e.2)).insertionSort netLE).length +
      ((((nets.filter (fun e => e.2 < 0)).map (fun e => (e.1, -e.2))).insertionSort netLE)).length)
    ((nets.filter (fun e => 0 < e.2)).insertionSort netLE)
    (((nets.filter (fun e => e.2 < 0)).map (fun e => (e.1, -e.2))).insertionSort netLE)
    (le_refl _)
    (fun e he => (mem_filter_pos (hpermc.subset he)).2)
    (fun e he => by
      obtain ⟨x, hx, hxe⟩ := List.mem_map.mp (hpermd.subset he)
      have hx2 := (mem_filter_neg hx).2
      rw [← hxe]
      simpa using hx2)
    (fun e he f hf => by
      obtain ⟨hel, hepos⟩ := mem_filter_pos (hpermc.subset he)
      obtain ⟨x, hx, hxe⟩ := List.mem_map.mp (hpermd.subset hf)
      obtain ⟨hxl, hxneg⟩ := mem_filter_neg hx
      intro heq
      have hfx : f.1 = x.1 := by rw [← hxe]
      have hex : e = x := nodup_key_inj hnd hel hxl (by rw [heq, hfx])
      rw [hex] at hepos
      omega)
    hsums
    i
  have e1 : settleNets nets = settleLoop
      (((nets.filter (fun e => 0 < e.2)).insertionSort netLE).length +
        ((((nets.filter (fun e => e.2 < 0)).map (fun e => (e.1, -e.2))).insertionSort netLE)).length)
      ((nets.filter (fun e => 0 < e.2)).insertionSort netLE)
      (((nets.filter (fun e => e.2 < 0)).map (fun e => (e.1, -e.2))).insertionSort netLE) := rfl
  rw [e1]
  refine ⟨?_, ?_⟩
  · rw [hmain.1, owed_perm hpermc i, owed_filter_pos hnd hmem]
  · rw [hmain.2, owed_perm hpermd i, owed_negmap hnd hmem]

theorem latestFor_eq_none_iff {l : List Submission} {pid : Nat} :
    latestFor pid l = none ↔ ∀ s ∈ l, s.playerId ≠ pid := by
  induction l with
  | nil => simp [latestFor]
  | cons a rest ih =>
    by_cases h : a.playerId = pid
    · simp only [latestFor, if_pos h]
      constructor
      · intro hn
        exfalso
        cases hr : latestFor pid rest <;> rw [hr] at hn <;> simp at hn
        split at hn <;> simp at hn
      · intro hall
        exact absurd h (hall a (List.mem_cons_self _ _))
    · simp only [latestFor, if_neg h]
      rw [ih]
      constructor
      · intro hall t ht
        rcases List.mem_cons.mp ht with h1 | h1
        · rw [h1]; exact h
        · exact hall t h1
      · intro hall t ht
        exact hall t (List.mem_cons_of_mem _ ht)

theorem latestFor_some_max {l : List Submission} {pid : Nat} {s : Submission}
    (h : latestFor pid l = some s) :
    s ∈ l ∧ s.playerId = pid ∧
      ∀ t ∈ l, t.playerId = pid → t.sequenceNumber ≤ s.sequenceNumber := by
  induction l generalizing s with
  | nil => simp [latestFor] at h
  | cons a rest ih =>
    by_cases ha : a.playerId = pid
    · simp only [latestFor, if_pos ha] at h
      cases hr : latestFor pid rest with
      | none =>
        rw [hr] at h
        simp at h
        subst h
        refine ⟨List.mem_cons_self _ _, ha, ?_⟩
        intro t ht htp
        rcases List.mem_cons.mp ht with h1 | h1
        · rw [h1]
        · exact absurd htp (latestFor_eq_none_iff.mp hr t h1)
      | some b =>
        rw [hr] at h
        change (if b.sequenceNumber < a.sequenceNumber then some a else some b) = some s at h
        obtain ⟨hbm, hbp, hbmax⟩ := ih hr
        by_cases hseq : b.sequenceNumber < a.sequenceNumber
        · rw [if_pos hseq] at h
          simp at h
          subst h
          refine ⟨List.mem_cons_self _ _, ha, ?_⟩
          intro t ht htp
          rcases List.mem_cons.mp ht with h1 | h1
          · rw [h1]
          · have := hbmax t h1 htp
            omega
        · rw [if_neg hseq] at h
          simp at h
          subst h
          refine ⟨List.mem_cons_of_mem _ hbm, hbp, ?_⟩
          intro t ht htp
          rcases List.mem_cons.mp ht with h1 | h1
          · rw [h1]; omega
          · exact hbmax t h1 htp
    · simp only [latestFor, if_neg ha] at h
      obtain ⟨hm, hp, hmax⟩ := ih h
      refine ⟨List.mem_cons_of_mem _ hm, hp, ?_⟩
      intro t ht htp
      rcases List.mem_cons.mp ht with h1 | h1
      · rw [h1] at htp; exact absurd htp ha
      · exact hmax t h1 htp

theorem latestFor_eq_max {l : List Submission} {pid : Nat} {s : Submission}
    (hdist : (l.filter (fun t => t.playerId = pid)).Pairwise
      (fun a b => a.sequenceNumber ≠ b.sequenceNumber))
    (hs : s ∈ l) (hpid : s.playerId = pid)
    (hmax : ∀ t ∈ l, t.playerId = pid → t.sequenceNumber ≤ s.sequenceNumber) :
    latestFor pid l = some s := by
  cases hr : latestFor pid l with
  | none => exact absurd hpid (latestFor_eq_none_iff.mp hr s hs)
  | some b =>
    obtain ⟨hbm, hbp, hbmax⟩ := latestFor_some_max hr
    have h1 : b.sequenceNumber ≤ s.sequenceNumber := hmax b hbm hbp
    have h2 : s.sequenceNumber ≤ b.sequenceNumber := hbmax s hs hpid
    have hbs : b = s := by
      by_contra hne
      have hsym : Symmetric (fun a b : Submission => a.sequenceNumber ≠ b.sequenceNumber) :=
        fun x y hxy => (fun he => hxy he.symm)
      have hforall := hdist.forall hsym
      have hbf : b ∈ l.filter (fun t => t.playerId = pid) :=
        List.mem_filter.mpr ⟨hbm, by simpa using hbp⟩
      have hsf : s ∈ l.filter (fun t => t.playerId = pid) :=
        List.mem_filter.mpr ⟨hs, by simpa using hpid⟩
      exact hforall hbf hsf hne (by omega)
    rw [hbs]

theorem endGame_open_inv {p : Party} {b : Int} {s : Settlement} {q : Party}
    (hopen : p.status = .Open) (h : endGame p b = (.ok s, q)) :
    s = computeSettlement p b ∧ q = { p with status := .Ended (computeSettlement p b) } := by
  unfold endGame at h
  rw [hopen] at h
  by_cases hb : b ≤ 0
  · rw [if_pos hb] at h
    simp [Prod.ext_iff] at h
  · rw [if_neg hb] at h
    rw [Prod.mk.injEq] at h
    obtain ⟨h1, h2⟩ := h
    refine ⟨?_, h2.symm⟩
    injection h1 with h3
    exact h3.symm

theorem endGame_ok_status {p : Party} {b : Int} {s : Settlement} {q : Party}
    (h : endGame p b = (.ok s, q)) : q.status = .Ended s := by
  cases hst : p.status with
  | Open =>
    obtain ⟨h1, h2⟩ := endGame_open_inv hst h
    rw [h2, h1]
  | Ending =>
    unfold endGame at h
    rw [hst] at h
    simp [Prod.ext_iff] at h
  | Ended s0 =>
    unfold endGame at h
    rw [hst] at h
    rw [Prod.mk.injEq] at h
    obtain ⟨h1, h2⟩ := h
    have hs : s0 = s := by
      injection h1
    rw [← h2, hst, hs]

theorem endGame_on_ended {p : Party} {s : Settlement} (h : p.status = .Ended s) (b : Int) :
    endGame p b = (.ok s, p) := by
  unfold endGame
  rw [h]

theorem submit_on_ended {p : Party} {s : Settlement} (h : p.status = .Ended s)
    (pid : Nat) (v : Int) (ref : String) :
    submit p pid v ref = (.error .PartyClosed, p) := by
  unfold submit
  rw [h]

theorem joinParty_on_ended {p : Party} {s : Settlement} (h : p.status = .Ended s)
    (nm : String) (vh : Option String) :
    joinParty p nm vh = (.error .PartyClosed, p) := by
  unfold joinParty
  rw [h]

theorem computeNets_fst (p : Party) (b : Int) :
    (computeNets p b).map Prod.fst = p.players.map Player.id := by
  simp [computeNets, List.map_map]

theorem filter_length_split (l : List (Nat × Int)) :
    (l.filter (fun e => 0 < e.2)).length + (l.filter (fun e => e.2 < 0)).length =
      (l.filter (fun e => ¬ e.2 = 0)).length := by
  induction l with
  | nil => rfl
  | cons a t ih =>
    by_cases h1 : 0 < a.2
    · rw [List.filter_cons_of_pos (by simpa using h1),
        List.filter_cons_of_neg (by simpa using (by omega : ¬ a.2 < 0)),
        List.filter_cons_of_pos (by simpa using (by omega : ¬ a.2 = 0))]
      simp only [List.length_cons]
      omega
    · by_cases h2 : a.2 < 0
      · rw [List.filter_cons_of_neg (by simpa using h1),
          List.filter_cons_of_pos (by simpa using h2),
          List.filter_cons_of_pos (by simpa using (by omega : ¬ a.2 = 0))]
        simp only [List.length_cons]
        omega
      · rw [List.filter_cons_of_neg (by simpa using h1),
          List.filter_cons_of_neg (by simpa using h2),
          List.filter_cons_of_neg (by simpa using (by omega : ¬ ¬ a.2 = 0))]
        omega

theorem indicator_sum_of_mem {ids : List Nat} {a : Nat} (c : Int)
    (hnd : ids.Nodup) (ha : a ∈ ids) :
    (ids.map (fun i => if a = i then c else 0)).sum = c := by
  induction ids with
  | nil => simp at ha
  | cons x t ih =>
    rw [List.nodup_cons] at hnd
    rcases List.mem_cons.mp ha with h | h
    · subst h
      have hz : (t.map (fun i => if a = i then c else 0)).sum = 0 := by
        apply List.sum_eq_zero
        intro y hy
        obtain ⟨j, hj, hji⟩ := List.mem_map.mp hy
        have : a ≠ j := fun he => hnd.1 (he ▸ hj)
        rw [← hji, if_neg this]
      have haa : (if a = a then c else 0) = c := if_pos rfl
      rw [List.map_cons, List.sum_cons, haa, hz]
      omega
    · have hne : a ≠ x := fun he => hnd.1 (he ▸ h)
      have hax : (if a = x then c else 0) = 0 := if_neg hne
      rw [List.map_cons, List.sum_cons, hax, ih hnd.2 h]
      omega

theorem sum_recv_eq_total {ids : List Nat} {ts : List Transfer}
    (hnd : ids.Nodup) (hmem : ∀ t ∈ ts, t.toPlayerId ∈ ids) :
    (ids.map (recv ts)).sum = (ts.map Transfer.amountCents).sum := by
  induction ts with
  | nil =>
    simp only [recv, List.map_nil, List.sum_nil]
    apply List.sum_eq_zero
    intro y hy
    obtain ⟨j, hj, hji⟩ := List.mem_map.mp hy
    exact hji.symm
  | cons t ts ih =>
    have h1 : ids.map (recv (t :: ts)) =
        ids.map (fun i => (if t.toPlayerId = i then t.amountCents else 0) + recv ts i) := by
      apply List.map_congr_left
      intro i _
      exact recv_cons t ts i
    rw [h1, List.sum_map_add, indicator_sum_of_mem t.amountCents hnd
      (hmem t (List.mem_cons_self _ _)), ih (fun u hu => hmem u (List.mem_cons_of_mem _ hu))]
    simp

theorem sum_paid_eq_total {ids : List Nat} {ts : List Transfer}
    (hnd : ids.Nodup) (hmem : ∀ t ∈ ts, t.fromPlayerId ∈ ids) :
    (ids.map (paid ts)).sum = (ts.map Transfer.amountCents).sum := by
  induction ts with
  | nil =>
    simp only [paid, List.map_nil, List.sum_nil]
    apply List.sum_eq_zero
    intro y hy
    obtain ⟨j, hj, hji⟩ := List.mem_map.mp hy
    exact hji.symm
  | cons t ts ih =>
    have h1 : ids.map (paid (t :: ts)) =
        ids.map (fun i => (if t.fromPlayerId = i then t.amountCents else 0) + paid ts i) := by
      apply List.map_congr_left
      intro i _
      exact paid_cons t ts i
    rw [h1, List.sum_map_add, indicator_sum_of_mem t.amountCents hnd
      (hmem t (List.mem_cons_self _ _)), ih (fun u hu => hmem u (List.mem_cons_of_mem _ hu))]
    simp

theorem settleNets_mem {nets : List (Nat × Int)} {t : Transfer}
    (ht : t ∈ settleNets nets) :
    t.toPlayerId ∈ nets.map Prod.fst ∧ t.fromPlayerId ∈ nets.map Prod.fst := by
  have h := settleLoop_mem _ _ _ t ht
  constructor
  · have h1 := ((List.perm_insertionSort netLE _).map Prod.fst).mem_iff.mp h.1
    obtain ⟨e, he, hei⟩ := List.mem_map.mp h1
    rw [← hei]
    exact List.mem_map_of_mem Prod.fst (mem_filter_pos he).1
  · have h1 := ((List.perm_insertionSort netLE _).map Prod.fst).mem_iff.mp h.2
    rw [negmap_fst] at h1
    obtain ⟨e, he, hei⟩ := List.mem_map.mp h1
    rw [← hei]
    exact List.mem_map_of_mem Prod.fst (mem_filter_neg he).1

/-- A client-side HTTP request: target path plus the JSON or form fields
sent with it, as string pairs. -/
structure ClientRequest where
  path : String
  fields : List (String × String)
deriving Repr, DecidableEq

/-- From src/unnamed/part_000 (home page), createParty: POSTs to /party
with a JSON body holding only host_name. -/
def createPartyRequest (hostName : String) : ClientRequest :=
  ⟨"/party", [("host_name", hostName)]⟩

/-- From web/app/party/[code]/host/page.tsx, endGame: POSTs to
/party/code/end with buy_in_cents hard-coded to 2000 cents. -/
def endGameRequest (code : String) : ClientRequest :=
  ⟨"/party/" ++ code ++ "/end", [("buy_in_cents", "2000")]⟩

/-- Client-side localStorage model: key/value pairs, the most recent
setItem first, as observed by getItem. -/
def lsGet (store : List (String × String)) (k : String) : Option String :=
  match store.find? (fun e => e.1 = k) with
  | some e => some e.2
  | none => none

/-- localStorage setItem: the new binding shadows any earlier one. -/
def lsSet (store : List (String × String)) (k v : String) : List (String × String) :=
  (k, v) :: store

/-- The localStorage key the join and upload pages share for a party code. -/
def playerIdKey (code : String) : String :=
  "player_id:" ++ code

/-- From web/app/party/[code]/join/page.tsx: a successful join stores the
returned player_id (a number, stringified) under player_id:code. -/
def joinClientStore (store : List (String × String)) (code : String)
    (playerId : Nat) : List (String × String) :=
  lsSet store (playerIdKey code) (toString playerId)

/-- Outcome of the upload page's upload handler. -/
inductive UploadAction where
  | errorOnly (message : String)
  | request (r : ClientRequest)
deriving Repr, DecidableEq

/-- From web/app/party/[code]/upload/page.tsx: reads player_id:code from
localStorage; a missing value — null, or the empty string, both falsy in
the JS test — yields an error and no network request; likewise a missing
file; otherwise the form posts player_id and the image file. -/
def uploadClient (store : List (String × String)) (code : String)
    (file : Option String) : UploadAction :=
  match lsGet store (playerIdKey code) with
  | none => .errorOnly "No player_id found. Please join first."
  | some pid =>
    if pid = "" then .errorOnly "No player_id found. Please join first."
    else
      match file with
      | none => .errorOnly "Choose an image first."
      | some f =>
        .request ⟨"/party/" ++ code ++ "/upload", [("player_id", pid), ("image", f)]⟩

theorem toDigitsCore_ne_nil :
    ∀ (f n : Nat) (acc : List Char), acc ≠ [] ∨ f ≠ 0 →
      Nat.toDigitsCore 10 f n acc ≠ [] := by
  intro f
  induction f with
  | zero =>
    intro n acc h
    rcases h with h | h
    · simpa [Nat.toDigitsCore] using h
    · exact absurd rfl h
  | succ f ih =>
    intro n acc _
    simp only [Nat.toDigitsCore]
    split
    · exact List.cons_ne_nil _ _
    · exact ih _ _ (Or.inl (List.cons_ne_nil _ _))

theorem toString_nat_ne_empty (n : Nat) : toString n ≠ "" := by
  have h : Nat.toDigits 10 n ≠ [] :=
    toDigitsCore_ne_nil (n + 1) n [] (Or.inr (Nat.succ_ne_zero n))
  intro he
  apply h
  have : (Nat.toDigits 10 n).asString = "" := he
  simpa [List.asString, String.ext_iff] using this

/-- A trivial Open Party used as a fallback and for witnesses. -/
def emptyParty : Party :=
  { code := "", status := .Open, players := [], submissions := [], nextSeq := 1, nextPlayerId := 1 }

/-- Unwrap a creation result (total on the inputs used below). -/
def okParty (e : Except Err Party) : Party :=
  match e with
  | .ok p => p
  | .error _ => emptyParty

/-- Two-player party, buy-in 1000 at EndGame time, where only player 1
submits (1500 cents): nets are (1, +500) and (2, −1000), which do not sum
to zero. -/
def cexParty : Party :=
  (submit ((joinParty (okParty (createParty "c" "alice")) "bob" none).2) 1 1500 "img").2

/-- The party after ending `cexParty` with buy-in 1000. -/
def cexEnded : Party :=
  (endGame cexParty 1000).2

/-- Two-player party, buy-in 2000, both submit (2500 and 1500): nets are
(1, +500) and (2, −500), summing to zero. -/
def balParty : Party :=
  (submit (submit ((joinParty (okParty (createParty "b" "carol")) "dave" none).2)
    1 2500 "x").2 2 1500 "y").2

theorem sumRem_computeNets (p : Party) (b : Int) :
    sumRem (computeNets p b) =
      (p.players.map (fun pl => (resolveTotal p pl.id).getD 0)).sum - p.players.length * b := by
  suffices h : ∀ ps : List Player,
      sumRem (ps.map (fun pl => (pl.id, (resolveTotal p pl.id).getD 0 - b))) =
        (ps.map (fun pl => (resolveTotal p pl.id).getD 0)).sum - ps.length * b by
    exact h p.players
  intro ps
  induction ps with
  | nil => simp [sumRem]
  | cons a t ih =>
    rw [List.map_cons, sumRem_cons, ih, List.map_cons, List.sum_cons, List.length_cons]
    push_cast
    ring

/-- C1 (amended): for every Party on which EndGame completes from Open
status, with distinct player ids and net balances summing to zero, the
Settlement fully discharges every player's net: the amount received is
max(net, 0) and the amount paid is max(−net, 0), net being the resolved
total (0 when unresolved) minus the buy-in. -/
theorem endGame_settlement_discharges_zero_sum
    (p : Party) (b : Int) (s : Settlement) (q : Party)
    (hopen : p.status = .Open)
    (hend : endGame p b = (.ok s, q))
    (hids : (p.players.map Player.id).Nodup)
    (hzero : sumRem (computeNets p b) = 0) :
    ∀ pl ∈ p.players,
      recv s.transfers pl.id = max ((resolveTotal p pl.id).getD 0 - b) 0 ∧
      paid s.transfers pl.id = max (b - (resolveTotal p pl.id).getD 0) 0 := by
  intro pl hpl
  obtain ⟨hs, hq⟩ := endGame_open_inv hopen hend
  subst hs
  have hnd : ((computeNets p b).map Prod.fst).Nodup := by
    rw [computeNets_fst]
    exact hids
  have hmem : (pl.id, (resolveTotal p pl.id).getD 0 - b) ∈ computeNets p b :=
    List.mem_map_of_mem _ hpl
  have h := settleNets_discharge hnd hzero hmem
  have htr : (computeSettlement p b).transfers = settleNets (computeNets p b) := rfl
  rw [htr]
  refine ⟨h.1, ?_⟩
  rw [h.2, neg_sub]

/-- Witness for C1 on the balanced two-player party. -/
theorem endGame_settlement_discharges_zero_sum_witness :
    recv (computeSettlement balParty 2000).transfers 2 =
      max ((resolveTotal balParty 2).getD 0 - 2000) 0 ∧
    paid (computeSettlement balParty 2000).transfers 2 =
      max (2000 - (resolveTotal balParty 2).getD 0) 0 :=
  endGame_settlement_discharges_zero_sum balParty 2000
    (computeSettlement balParty 2000) ((endGame balParty 2000).2)
    rfl rfl (by decide) (by decide)
    ⟨2, "dave", none, .Participant⟩ (by decide)

/-- C1 counterexample: on `cexParty` EndGame completes, yet player 2 pays
500 while max(−net, 0) = 1000, so the unamended claim fails. -/
theorem endGame_settlement_discharge_fails_unbalanced :
    cexParty.status = .Open ∧
    endGame cexParty 1000 = (.ok (computeSettlement cexParty 1000), cexEnded) ∧
    paid (computeSettlement cexParty 1000).transfers 2 = 500 ∧
    max (1000 - (resolveTotal cexParty 2).getD 0) 0 = 1000 ∧
    ¬ paid (computeSettlement cexParty 1000).transfers 2 =
        max (1000 - (resolveTotal cexParty 2).getD 0) 0 :=
  ⟨rfl, rfl, by decide, by decide, by decide⟩

/-- C3: the Settlement of a completed EndGame has at most
(players with nonzero net) − 1 Transfers (truncated subtraction), and none
at all when every net is zero. -/
theorem endGame_transfer_count_bound
    (p : Party) (b : Int) (s : Settlement) (q : Party)
    (hopen : p.status = .Open)
    (hend : endGame p b = (.ok s, q)) :
    s.transfers.length ≤ ((computeNets p b).filter (fun e => ¬ e.2 = 0)).length - 1 ∧
    ((∀ e ∈ computeNets p b, e.2 = 0) → s.transfers = []) := by
  obtain ⟨hs, hq⟩ := endGame_open_inv hopen hend
  subst hs
  have htr : (computeSettlement p b).transfers = settleNets (computeNets p b) := rfl
  constructor
  · rw [htr]
    have hb := settleLoop_length
      ((((computeNets p b).filter (fun e => 0 < e.2)).insertionSort netLE).length +
        ((((computeNets p b).filter (fun e => e.2 < 0)).map
          (fun e => (e.1, -e.2))).insertionSort netLE).length)
      (((computeNets p b).filter (fun e => 0 < e.2)).insertionSort netLE)
      ((((computeNets p b).filter (fun e => e.2 < 0)).map
        (fun e => (e.1, -e.2))).insertionSort netLE)
    have hl1 := (List.perm_insertionSort netLE
      ((computeNets p b).filter (fun e => 0 < e.2))).length_eq
    have hl2 := (List.perm_insertionSort netLE
      (((computeNets p b).filter (fun e => e.2 < 0)).map (fun e => (e.1, -e.2)))).length_eq
    have hl3 : (((computeNets p b).filter (fun e => e.2 < 0)).map
        (fun e => (e.1, -e.2))).length = ((computeNets p b).filter (fun e => e.2 < 0)).length :=
      List.length_map _ _
    have hsplit := filter_length_split (computeNets p b)
    have he : settleNets (computeNets p b) = settleLoop
        ((((computeNets p b).filter (fun e => 0 < e.2)).insertionSort netLE).length +
          ((((computeNets p b).filter (fun e => e.2 < 0)).map
            (fun e => (e.1, -e.2))).insertionSort netLE).length)
        (((computeNets p b).filter (fun e => 0 < e.2)).insertionSort netLE)
        ((((computeNets p b).filter (fun e => e.2 < 0)).map
          (fun e => (e.1, -e.2))).insertionSort netLE) := rfl
    rw [he]
    omega
  · intro hz
    have h1 : (computeNets p b).filter (fun e => 0 < e.2) = [] := by
      rw [List.filter_eq_nil_iff]
      intro e he
      have := hz e he
      simp [this]
    have h2 : (computeNets p b).filter (fun e => e.2 < 0) = [] := by
      rw [List.filter_eq_nil_iff]
      intro e he
      have := hz e he
      simp [this]
    rw [htr]
    show settleNets (computeNets p b) = []
    unfold settleNets
    rw [h1, h2]
    rfl

/-- Witness for C3 on the unbalanced two-player party. -/
theorem endGame_transfer_count_bound_witness :
    (computeSettlement cexParty 1000).transfers.length ≤
      ((computeNets cexParty 1000).filter (fun e => ¬ e.2 = 0)).length - 1 ∧
    ((∀ e ∈ computeNets cexParty 1000, e.2 = 0) →
      (computeSettlement cexParty 1000).transfers = []) :=
  endGame_transfer_count_bound cexParty 1000
    (computeSettlement cexParty 1000) cexEnded rfl rfl

/-- C4: once EndGame has produced a Settlement, the Party stores it, every
later EndGame call returns exactly the stored result with the Party
unchanged, and neither Submit nor JoinParty mutates the Ended Party. -/
theorem endGame_idempotent_settlement_write_once
    (p : Party) (b : Int) (s : Settlement) (q : Party)
    (hend : endGame p b = (.ok s, q)) :
    q.settlement = some s ∧
    (∀ b2, endGame q b2 = (.ok s, q)) ∧
    (∀ pid v ref, submit q pid v ref = (.error .PartyClosed, q)) ∧
    (∀ nm vh, joinParty q nm vh = (.error .PartyClosed, q)) := by
  have hst := endGame_ok_status hend
  refine ⟨?_, ?_, ?_, ?_⟩
  · unfold Party.settlement
    rw [hst]
  · intro b2
    exact endGame_on_ended hst b2
  · intro pid v ref
    exact submit_on_ended hst pid v ref
  · intro nm vh
    exact joinParty_on_ended hst nm vh

/-- Witness for C4 on the ended two-player party. -/
theorem endGame_idempotent_settlement_write_once_witness :
    cexEnded.settlement = some (computeSettlement cexParty 1000) ∧
    endGame cexEnded 2000 = (.ok (computeSettlement cexParty 1000), cexEnded) ∧
    submit cexEnded 1 5 "r" = (.error .PartyClosed, cexEnded) ∧
    joinParty cexEnded "erin" none = (.error .PartyClosed, cexEnded) := by
  obtain ⟨h1, h2, h3, h4⟩ := endGame_idempotent_settlement_write_once cexParty 1000
    (computeSettlement cexParty 1000) cexEnded rfl
  exact ⟨h1, h2 2000, h3 1 5 "r", h4 "erin" none⟩

/-- C6 (amended): summed over the party's player ids, credited equals
debited; and the sum of net balances equals the sum of resolved totals
minus players × buy-in — it is not 0 in general. -/
theorem settlement_credits_eq_debits
    (p : Party) (b : Int) (s : Settlement) (q : Party)
    (hopen : p.status = .Open)
    (hend : endGame p b = (.ok s, q))
    (hids : (p.players.map Player.id).Nodup) :
    ((p.players.map Player.id).map (recv s.transfers)).sum =
      ((p.players.map Player.id).map (paid s.transfers)).sum ∧
    sumRem (computeNets p b) =
      (p.players.map (fun pl => (resolveTotal p pl.id).getD 0)).sum -
        p.players.length * b := by
  obtain ⟨hs, hq⟩ := endGame_open_inv hopen hend
  subst hs
  refine ⟨?_, sumRem_computeNets p b⟩
  have hmem : ∀ t ∈ (computeSettlement p b).transfers,
      t.toPlayerId ∈ p.players.map Player.id ∧
      t.fromPlayerId ∈ p.players.map Player.id := by
    intro t ht
    have h := settleNets_mem (ht : t ∈ settleNets (computeNets p b))
    rw [computeNets_fst] at h
    exact h
  rw [sum_recv_eq_total hids (fun t ht => (hmem t ht).1),
    sum_paid_eq_total hids (fun t ht => (hmem t ht).2)]

/-- Witness for C6 on the unbalanced two-player party. -/
theorem settlement_credits_eq_debits_witness :
    ((cexParty.players.map Player.id).map
        (recv (computeSettlement cexParty 1000).transfers)).sum =
      ((cexParty.players.map Player.id).map
        (paid (computeSettlement cexParty 1000).transfers)).sum ∧
    sumRem (computeNets cexParty 1000) =
      (cexParty.players.map (fun pl => (resolveTotal cexParty pl.id).getD 0)).sum -
        cexParty.players.length * 1000 :=
  settlement_credits_eq_debits cexParty 1000
    (computeSettlement cexParty 1000) cexEnded rfl rfl (by decide)

/-- C6 counterexample: on `cexParty` the net balances sum to −500, not 0. -/
theorem net_balances_sum_nonzero :
    cexParty.status = .Open ∧
    sumRem (computeNets cexParty 1000) = -500 ∧
    ¬ sumRem (computeNets cexParty 1000) = 0 :=
  ⟨rfl, by decide, by decide⟩

/-- C7: Submit on an Ended Party fails with PartyClosed and has no side
effect: the Party — its Submission log and stored Settlement included — is
returned unchanged. -/
theorem submit_after_endGame_partyClosed
    (p : Party) (s : Settlement) (pid : Nat) (v : Int) (ref : String)
    (h : p.status = .Ended s) :
    submit p pid v ref = (.error .PartyClosed, p) ∧
    (submit p pid v ref).2.submissions = p.submissions ∧
    (submit p pid v ref).2.settlement = p.settlement := by
  have h1 := submit_on_ended h pid v ref
  exact ⟨h1, by rw [h1], by rw [h1]⟩

/-- Witness for C7 on the ended two-player party. -/
theorem submit_after_endGame_partyClosed_witness :
    submit cexEnded 2 7 "z" = (.error .PartyClosed, cexEnded) ∧
    (submit cexEnded 2 7 "z").2.submissions = cexEnded.submissions ∧
    (submit cexEnded 2 7 "z").2.settlement = cexEnded.settlement :=
  submit_after_endGame_partyClosed cexEnded (computeSettlement cexParty 1000) 2 7 "z" rfl

/-- C5: the debt-netting computation is deterministic — it depends only on
the set of (player id, net) pairs, not on their arrival order, because
creditors and debtors are processed by absolute net descending with the
lower player id first on ties; on the spec's worked example it produces
exactly the two predicted transfers. -/
theorem settleNets_deterministic (nets₁ nets₂ : List (Nat × Int))
    (hperm : List.Perm nets₁ nets₂)
    (hnd : (nets₁.map Prod.fst).Nodup) :
    settleNets nets₁ = settleNets nets₂ ∧
    settleNets [(1, 3000), (2, -500), (3, -500)] = [⟨2, 1, 500⟩, ⟨3, 1, 500⟩] := by
  constructor
  · have hnd₂ : (nets₂.map Prod.fst).Nodup := ((hperm.map Prod.fst).nodup_iff).mp hnd
    have hc : (nets₁.filter (fun e => 0 < e.2)).insertionSort netLE =
        (nets₂.filter (fun e => 0 < e.2)).insertionSort netLE :=
      insertionSort_eq_of_perm (hperm.filter _) (filter_fst_nodup hnd₂ _)
    have hd : ((nets₁.filter (fun e => e.2 < 0)).map (fun e => (e.1, -e.2))).insertionSort netLE =
        ((nets₂.filter (fun e => e.2 < 0)).map (fun e => (e.1, -e.2))).insertionSort netLE :=
      insertionSort_eq_of_perm ((hperm.filter _).map _)
        (by rw [negmap_fst]; exact filter_fst_nodup hnd₂ _)
    simp only [settleNets]
    rw [hc, hd]
  · decide

/-- Witness for C5 on the spec example with two equal debtors swapped. -/
theorem settleNets_deterministic_witness :
    settleNets [(1, 3000), (2, -500), (3, -500)] =
      settleNets [(2, -500), (1, 3000), (3, -500)] :=
  (settleNets_deterministic [(1, 3000), (2, -500), (3, -500)]
    [(2, -500), (1, 3000), (3, -500)]
    (List.Perm.swap (2, -500) (1, 3000) [(3, -500)]) (by decide)).1

/-- C2: ResolveTotal returns the valuation of the player's Submission with
the greatest assigned sequence number, independent of the arrival order of
the log entries, and is absent exactly for a player with no Submission. -/
theorem resolveTotal_latest_wins (p q : Party) (pid : Nat)
    (hperm : List.Perm p.submissions q.submissions)
    (hdist : (p.submissions.filter (fun t => t.playerId = pid)).Pairwise
      (fun a b => a.sequenceNumber ≠ b.sequenceNumber)) :
    (∀ s, s ∈ p.submissions → s.playerId = pid →
      (∀ t ∈ p.submissions, t.playerId = pid → t.sequenceNumber ≤ s.sequenceNumber) →
      resolveTotal p pid = some s.valuationCents ∧
      resolveTotal q pid = some s.valuationCents) ∧
    ((∀ s ∈ p.submissions, s.playerId ≠ pid) →
      resolveTotal p pid = none ∧ resolveTotal q pid = none) := by
  have hsym : Symmetric (fun a b : Submission => a.sequenceNumber ≠ b.sequenceNumber) :=
    fun x y hxy he => hxy he.symm
  have hdist' : (q.submissions.filter (fun t => t.playerId = pid)).Pairwise
      (fun a b => a.sequenceNumber ≠ b.sequenceNumber) :=
    ((hperm.filter _).pairwise_iff (fun hxy he => hxy he.symm)).mp hdist
  constructor
  · intro s hs hpid hmax
    have h1 := latestFor_eq_max hdist hs hpid hmax
    have h2 := latestFor_eq_max hdist' (hperm.subset hs) hpid
      (fun t ht htp => hmax t (hperm.symm.subset ht) htp)
    unfold resolveTotal
    rw [h1, h2]
    exact ⟨rfl, rfl⟩
  · intro hall
    have h1 := latestFor_eq_none_iff.mpr hall
    have h2 := latestFor_eq_none_iff.mpr (fun s hs => hall s (hperm.symm.subset hs))
    unfold resolveTotal
    rw [h1, h2]
    exact ⟨rfl, rfl⟩

/-- One-player party whose two submissions arrive low-sequence first. -/
def partyLogA : Party :=
  { code := "z", status := .Open, players := [⟨7, "fred", none, .Host⟩],
    submissions := [⟨1, 7, 1, 1200, "a"⟩, ⟨2, 7, 2, 1500, "b"⟩],
    nextSeq := 3, nextPlayerId := 8 }

/-- The same party with the two submissions in the opposite log order. -/
def partyLogB : Party :=
  { partyLogA with submissions := [⟨2, 7, 2, 1500, "b"⟩, ⟨1, 7, 1, 1200, "a"⟩] }

/-- Witness for C2: both log orders resolve to the later valuation, 1500. -/
theorem resolveTotal_latest_wins_witness :
    resolveTotal partyLogA 7 = some 1500 ∧
    resolveTotal partyLogB 7 = some 1500 :=
  (resolveTotal_latest_wins partyLogA partyLogB 7
    (show List.Perm partyLogA.submissions partyLogB.submissions from
      List.Perm.swap (⟨2, 7, 2, 1500, "b"⟩ : Submission) (⟨1, 7, 1, 1200, "a"⟩ : Submission) [])
    (by decide)).1
    (⟨2, 7, 2, 1500, "b"⟩ : Submission) (by decide) rfl (by decide)

/-- C8 counterexample: the create-party request carries only host_name —
no buy_in_cents field — while the end-game request carries
buy_in_cents = 2000, so the buy-in is not fixed at Party creation. -/
theorem buyIn_not_fixed_at_creation :
    (createPartyRequest "alice").fields.map Prod.fst = ["host_name"] ∧
    ¬ "buy_in_cents" ∈ (createPartyRequest "alice").fields.map Prod.fst ∧
    ("buy_in_cents", "2000") ∈ (endGameRequest "ABCD").fields := by
  refine ⟨rfl, by decide, by decide⟩

/-- C8 (amended): CreateParty takes only the host name (the client posts
just host_name to /party); the buy-in is supplied per EndGame call (the
client posts buy_in_cents to /party/code/end, and a non-positive buy-in
fails there with InvalidInput); creation fails with InvalidInput exactly
when the host name is empty, and on success creates an Open Party whose
single first Player has role Host. -/
theorem createParty_contract (code hostName : String) (p : Party) (b : Int) :
    (createPartyRequest hostName).fields.map Prod.fst = ["host_name"] ∧
    ("buy_in_cents", "2000") ∈ (endGameRequest code).fields ∧
    (createParty code hostName = .error .InvalidInput ↔ hostName = "") ∧
    (hostName = "" ∨ ∃ q, createParty code hostName = .ok q ∧ q.status = .Open ∧
      q.players.map Player.role = [.Host] ∧
      q.players.map Player.displayName = [hostName]) ∧
    (p.status = .Open → b ≤ 0 → endGame p b = (.error .InvalidInput, p)) := by
  refine ⟨rfl, List.mem_singleton.mpr rfl, ?_, ?_, ?_⟩
  · unfold createParty
    by_cases h : hostName = ""
    · rw [if_pos h]
      simp [h]
    · rw [if_neg h]
      simp [h]
  · by_cases h : hostName = ""
    · exact Or.inl h
    · refine Or.inr ⟨⟨code, .Open, [⟨1, hostName, none, .Host⟩], [], 1, 2⟩, ?_, rfl, rfl, rfl⟩
      unfold createParty
      rw [if_neg h]
  · intro hopen hb
    unfold endGame
    rw [hopen, if_pos hb]

/-- Witness for C8: an empty host name is rejected, a normal creation
yields an Open Party with a Host, and a zero buy-in fails EndGame. -/
theorem createParty_contract_witness :
    createParty "AB" "" = .error .InvalidInput ∧
    (∃ q, createParty "AB" "alice" = .ok q ∧ q.status = .Open ∧
      q.players.map Player.role = [.Host] ∧
      q.players.map Player.displayName = ["alice"]) ∧
    endGame emptyParty 0 = (.error .InvalidInput, emptyParty) := by
  refine ⟨(createParty_contract "AB" "" emptyParty 0).2.2.1.mpr rfl, ?_,
    (createParty_contract "AB" "alice" emptyParty 0).2.2.2.2 rfl (by omega)⟩
  rcases (createParty_contract "AB" "alice" emptyParty 0).2.2.2.1 with h | h
  · exact absurd h (by decide)
  · exact h

/-- C9 counterexample: the upload client posts player_id and the image
file; no valuation field of any kind is part of the Submit call. -/
theorem upload_request_has_no_valuation_field :
    uploadClient (joinClientStore [] "AB" 7) "AB" (some "img.jpg") =
      .request ⟨"/party/AB/upload", [("player_id", "7"), ("image", "img.jpg")]⟩ ∧
    ([("player_id", "7"), ("image", "img.jpg")].map Prod.fst = ["player_id", "image"]) ∧
    ¬ "valuation_cents" ∈ ([("player_id", "7"), ("image", "img.jpg")].map Prod.fst) := by
  refine ⟨by decide, rfl, by decide⟩

/-- C9 (amended): every network request the upload client issues carries
exactly the fields player_id and image — the valuation is produced
server-side from the image, not passed by the caller — and the core's
Submit accepts exactly the non-negative integer cent values: on an Open
Party with a known player it succeeds iff valuationCents is at least 0. -/
theorem submit_boundary_contract (store : List (String × String)) (code f : String)
    (r : ClientRequest) (p : Party) (pid : Nat) (v : Int) (ref : String) :
    (uploadClient store code (some f) = .request r →
      r.fields.map Prod.fst = ["player_id", "image"]) ∧
    (p.status = .Open → (∃ pl ∈ p.players, pl.id = pid) →
      ((∃ sub, (submit p pid v ref).1 = .ok sub) ↔ 0 ≤ v)) := by
  constructor
  · intro h
    unfold uploadClient at h
    cases hg : lsGet store (playerIdKey code) with
    | none =>
      rw [hg] at h
      simp at h
    | some pid' =>
      rw [hg] at h
      change (if pid' = "" then UploadAction.errorOnly "No player_id found. Please join first."
        else UploadAction.request ⟨"/party/" ++ code ++ "/upload",
          [("player_id", pid'), ("image", f)]⟩) = UploadAction.request r at h
      by_cases hp : pid' = ""
      · rw [if_pos hp] at h
        simp at h
      · rw [if_neg hp] at h
        injection h with h2
        rw [← h2]
        rfl

  · rintro hopen ⟨pl, hpl, hplid⟩
    unfold submit
    rw [hopen]
    have hall : (p.players.all (fun x => x.id ≠ pid)) = false := by
      cases hb : p.players.all (fun x => x.id ≠ pid)
      · rfl
      · exfalso
        have := List.all_eq_true.mp hb pl hpl
        simp at this
        exact this hplid
    rw [if_neg (by rw [hall]; simp : ¬ (p.players.all (fun x => x.id ≠ pid) = true))]
    by_cases hv : v < 0
    · rw [if_pos hv]
      constructor
      · rintro ⟨sub, hsub⟩
        simp at hsub
      · intro h0
        omega
    · rw [if_neg hv]
      constructor
      · intro _
        omega
      · intro _
        exact ⟨_, rfl⟩

/-- Witness for C9: a concrete upload request has the two expected fields,
and a zero-cent submission on a fresh party succeeds. -/
theorem submit_boundary_contract_witness :
    (([("player_id", "7"), ("image", "img.jpg")] : List (String × String)).map Prod.fst =
      ["player_id", "image"]) ∧
    (∃ sub, (submit (okParty (createParty "c" "alice")) 1 0 "r").1 = .ok sub) := by
  constructor
  · exact (submit_boundary_contract (joinClientStore [] "AB" 7) "AB" "img.jpg"
      ⟨"/party/AB/upload", [("player_id", "7"), ("image", "img.jpg")]⟩
      (okParty (createParty "c" "alice")) 1 0 "r").1 (by decide)
  · exact ((submit_boundary_contract (joinClientStore [] "AB" 7) "AB" "img.jpg"
      ⟨"/party/AB/upload", [("player_id", "7"), ("image", "img.jpg")]⟩
      (okParty (createParty "c" "alice")) 1 0 "r").2 rfl
      ⟨⟨1, "alice", none, .Host⟩, by decide, rfl⟩).mpr (by omega)

/-- C10: over any localStorage contents — empty or already holding a
binding for the key — a join for that code leaves player_id:code holding
exactly the stringified player_id of that join, because setItem shadows any
earlier binding (so the most recent successful join wins, as the re-join
conjunct over an earlier join for the same code states explicitly), and the
upload request carries that stored value verbatim; when nothing is stored
under the key the upload client only reports an error and issues no
request. -/
theorem upload_sends_stored_player_id (store : List (String × String))
    (code : String) (pid pid2 : Nat) (f : String) (file : Option String) :
    (lsGet store (playerIdKey code) = none →
      uploadClient store code file = .errorOnly "No player_id found. Please join first.") ∧
    lsGet (joinClientStore store code pid) (playerIdKey code) = some (toString pid) ∧
    uploadClient (joinClientStore store code pid) code (some f) =
      .request ⟨"/party/" ++ code ++ "/upload",
        [("player_id", toString pid), ("image", f)]⟩ ∧
    lsGet (joinClientStore (joinClientStore store code pid2) code pid)
        (playerIdKey code) = some (toString pid) ∧
    uploadClient (joinClientStore (joinClientStore store code pid2) code pid) code (some f) =
      .request ⟨"/party/" ++ code ++ "/upload",
        [("player_id", toString pid), ("image", f)]⟩ := by
  have hget : ∀ st : List (String × String),
      lsGet (joinClientStore st code pid) (playerIdKey code) = some (toString pid) := by
    intro st
    unfold joinClientStore lsSet lsGet
    rw [List.find?_cons_of_pos _ (by simp)]
  have hreq : ∀ st : List (String × String),
      uploadClient (joinClientStore st code pid) code (some f) =
        .request ⟨"/party/" ++ code ++ "/upload",
          [("player_id", toString pid), ("image", f)]⟩ := by
    intro st
    unfold uploadClient
    rw [hget st]
    change (if toString pid = "" then
        UploadAction.errorOnly "No player_id found. Please join first."
      else UploadAction.request ⟨"/party/" ++ code ++ "/upload",
        [("player_id", toString pid), ("image", f)]⟩) =
      UploadAction.request ⟨"/party/" ++ code ++ "/upload",
        [("player_id", toString pid), ("image", f)]⟩
    rw [if_neg (toString_nat_ne_empty pid)]
  refine ⟨?_, hget store, hreq store,
    hget (joinClientStore store code pid2), hreq (joinClientStore store code pid2)⟩
  intro hmissing
  unfold uploadClient
  rw [hmissing]

/-- Witness for C10: a fresh store errors without a request; joining as
player 9 and then re-joining as player 7 for code AB leaves 7 stored, and
the upload sends 7 — the most recent join — not the shadowed 9. -/
theorem upload_sends_stored_player_id_witness :
    uploadClient [] "AB" none = .errorOnly "No player_id found. Please join first." ∧
    lsGet (joinClientStore (joinClientStore [] "AB" 9) "AB" 7) (playerIdKey "AB") =
      some (toString 7) ∧
    uploadClient (joinClientStore (joinClientStore [] "AB" 9) "AB" 7) "AB" (some "img.jpg") =
      .request ⟨"/party/AB/upload", [("player_id", toString 7), ("image", "img.jpg")]⟩ := by
  obtain ⟨h1, _, _, h4, h5⟩ :=
    upload_sends_stored_player_id [] "AB" 7 9 "img.jpg" none
  exact ⟨h1 rfl, h4, h5⟩

/-- Sequence-number assignment keeps the log's sequence numbers below the
counter and pairwise distinct, so the hypotheses of
resolveTotal_latest_wins hold on every reachable Party. -/
theorem submit_preserves_seq_distinct (p : Party) (pid : Nat) (v : Int) (ref : String)
    (hlt : ∀ s ∈ p.submissions, s.sequenceNumber < p.nextSeq)
    (hdist : p.submissions.Pairwise (fun a b => a.sequenceNumber ≠ b.sequenceNumber)) :
    (∀ s ∈ (submit p pid v ref).2.submissions,
      s.sequenceNumber < (submit p pid v ref).2.nextSeq) ∧
    (submit p pid v ref).2.submissions.Pairwise
      (fun a b => a.sequenceNumber ≠ b.sequenceNumber) := by
  unfold submit
  cases hst : p.status with
  | Open =>
    by_cases h1 : p.players.all (fun pl => pl.id ≠ pid) = true
    · rw [if_pos h1]
      exact ⟨hlt, hdist⟩
    · rw [if_neg h1]
      by_cases h2 : v < 0
      · rw [if_pos h2]
        exact ⟨hlt, hdist⟩
      · rw [if_neg h2]
        constructor
        · intro s hs
          rcases List.mem_cons.mp hs with h | h
          · rw [h]
            exact Nat.lt_succ_self _
          · exact Nat.lt_succ_of_lt (hlt s h)
        · exact List.Pairwise.cons (fun t ht => Nat.ne_of_gt (hlt t ht)) hdist
  | Ending =>
    exact ⟨hlt, hdist⟩
  | Ended s =>
    exact ⟨hlt, hdist⟩
